import Mathlib

/-!
Verification development for the AI-Job-Hunter repository.

We shallowly embed the feature-extraction logic of `resume_parser.py`, the
fit-scoring logic of `ai_assistant.py` (over exact rational arithmetic), and
the job-cache/fetch logic of `scraper.py` (with the file system modelled as
an explicit state and the network modelled as an explicit request outcome),
and prove or refute the frozen claims about them.
-/

namespace AIJobHunter

/-! ### Character-level helpers (ASCII fragment of Python's `str.lower`, `\w`, `\d`, `\s`) -/

/-- ASCII lowering, the fragment of Python's `str.lower()` relevant to the
skill vocabulary and the experience pattern. -/
def asciiLower (c : Char) : Char :=
  if 'A' ≤ c ∧ c ≤ 'Z' then Char.ofNat (c.toNat + 32) else c

/-- `text.lower()` applied to the characters of a string. -/
def lowerStr (s : String) : List Char := s.data.map asciiLower

/-- Python regex `\w` (ASCII fragment): letters, digits, underscore. -/
def isWordChar (c : Char) : Bool := c.isAlphanum || c = '_'

/-- Python regex `\d` (ASCII fragment). -/
def isPyDigit (c : Char) : Bool := c.isDigit

/-- Python regex `\s` (ASCII fragment). -/
def isPySpace (c : Char) : Bool :=
  c = ' ' || c = '\t' || c = '\n' || c = '\r' || c = '\x0b' || c = '\x0c'

/-- `startsWith pat s` holds when `pat` begins the list `s`
(the matching of a literal regex atom at a position). -/
def startsWith : List Char → List Char → Bool
  | [], _ => true
  | _ :: _, [] => false
  | p :: ps, c :: cs => p == c && startsWith ps cs

/-! ### `resume_parser.extract_resume_features`: skill detection

The source matches each keyword with `re.search(r'\b' + re.escape(skill) + r'\b',
text_lower)`.  `\b` matches at a position whose two neighbours (out of range
counting as non-word) disagree on `\w`-ness. -/

/-- Whether the character at index `i` of `s` is a word character
(out of range counts as non-word). -/
def wordAt (s : List Char) (i : ℕ) : Bool :=
  match s.get? i with
  | some c => isWordChar c
  | none => false

/-- Whether the character just before index `i` is a word character. -/
def prevWordAt (s : List Char) (i : ℕ) : Bool :=
  match i with
  | 0 => false
  | j + 1 => wordAt s j

/-- Python regex `\b` at position `i` of `s`. -/
def boundaryAt (s : List Char) (i : ℕ) : Bool :=
  prevWordAt s i != wordAt s i

/-- `re.search(r'\b' ++ re.escape(pat) ++ r'\b', s)` succeeds: the literal
`pat` occurs at some position with a word boundary on each side. -/
def matchesWholeWord (pat : List Char) (s : List Char) : Bool :=
  (List.range (s.length + 1)).any fun i =>
    startsWith pat (s.drop i) && boundaryAt s i && boundaryAt s (i + pat.length)

/-- The fixed skill vocabulary `SKILL_KEYWORDS` of `resume_parser.py`. -/
def SKILL_KEYWORDS : List String :=
  ["python", "java", "machine learning", "ml", "data science", "sql",
   "react", "javascript", "node", "c++", "c#", "aws", "docker",
   "tensorflow", "pytorch", "nlp", "excel", "tableau"]

/-- `sorted({skill for skill in SKILL_KEYWORDS if re.search(...)})`:
the keywords that match whole-word in the lowered text, sorted.
(`SKILL_KEYWORDS` has no duplicates, so the set comprehension is the filter.) -/
def extract_skills (t : List Char) : List String :=
  List.insertionSort (· ≤ ·) (SKILL_KEYWORDS.filter fun sk => matchesWholeWord sk.data t)

/-! ### `resume_parser.extract_resume_features`: experience extraction

The source runs `re.findall(r'(\d+)(\+)?\s*(?:years?|yrs?)', text_lower)` and
takes `max((int(m[0]) for m in matches), default=0)`.  We embed the findall
scan of this one pattern directly: at each position, greedily take a digit
run, an optional `+`, a whitespace run, then a year token; on a match record
the digit value and resume after the match, otherwise advance one character. -/

/-- The numeric value of a digit run (Python `int` on the captured group). -/
def digitsToNat (ds : List Char) : ℕ :=
  ds.foldl (fun n c => 10 * n + (c.toNat - 48)) 0

/-- The regex tail `(?:years?|yrs?)`: number of characters consumed by the
year token at the head of `s`, with the alternation and the greedy optional
`s` in the order the regex tries them. -/
def yearTok (s : List Char) : Option ℕ :=
  if startsWith ['y', 'e', 'a', 'r', 's'] s then some 5
  else if startsWith ['y', 'e', 'a', 'r'] s then some 4
  else if startsWith ['y', 'r', 's'] s then some 3
  else if startsWith ['y', 'r'] s then some 2
  else none

/-- Number of characters consumed by the optional `(\+)?`. -/
def plusCount : List Char → ℕ
  | '+' :: _ => 1
  | _ => 0

/-- The rest of `s` after the greedy digit run `(\d+)`. -/
def afterDigits (s : List Char) : List Char := s.dropWhile isPyDigit

/-- The rest after the optional `+`. -/
def afterPlus (s : List Char) : List Char :=
  (afterDigits s).drop (plusCount (afterDigits s))

/-- The greedy whitespace run `\s*` after the optional `+`. -/
def wsRun (s : List Char) : List Char := (afterPlus s).takeWhile isPySpace

/-- The rest after the whitespace run. -/
def afterWs (s : List Char) : List Char := (afterPlus s).dropWhile isPySpace

/-- Match of `(\d+)(\+)?\s*(?:years?|yrs?)` anchored at the head of `s`:
returns the captured number and how many characters the match consumed. -/
def matchXPAt (s : List Char) : Option (ℕ × ℕ) :=
  if (s.takeWhile isPyDigit).isEmpty then none
  else
    match yearTok (afterWs s) with
    | some k =>
        some (digitsToNat (s.takeWhile isPyDigit),
          (s.takeWhile isPyDigit).length + plusCount (afterDigits s) + (wsRun s).length + k)
    | none => none

/-- The `re.findall` scan, fuelled by the length of the remaining input
(each step consumes at least one character, so `s.length` fuel suffices). -/
def findallXPFuel : ℕ → List Char → List ℕ
  | 0, _ => []
  | _, [] => []
  | fuel + 1, c :: rest =>
    match matchXPAt (c :: rest) with
    | some (n, k) => n :: findallXPFuel fuel (rest.drop (k - 1))
    | none => findallXPFuel fuel rest

/-- All captured experience numbers of `re.findall(r'(\d+)(\+)?\s*(?:years?|yrs?)', s)`. -/
def findallXP (s : List Char) : List ℕ := findallXPFuel s.length s

/-- `max(gen, default=0)`. -/
def maxNat (l : List ℕ) : ℕ := l.foldr max 0

/-- The result record of `extract_resume_features`. -/
structure Features where
  skills : List String
  experience : ℕ
deriving DecidableEq

/-- `resume_parser.extract_resume_features`. -/
def extract_resume_features (text : String) : Features :=
  { skills := extract_skills (lowerStr text)
    experience := maxNat (findallXP (lowerStr text)) }

/-! ### `scraper.py`: job records, cache store, fetcher

The persisted cache file `data/scraped_jobs.json` is modelled as an explicit
state: absent, present-but-unparseable, or present with a parsed list of
records (the JSON round trip itself is taken as faithful).  The network is
modelled as an explicit request outcome. -/

/-- The normalized job record built by `fetch_jobs` (all fields nullable;
`salary` is defaulted to `""` by the parser but kept nullable in the shape). -/
structure JobRecord where
  title : Option String
  company : Option String
  location : Option String
  salary : Option String
  description : Option String
  url : Option String
  posted_date : Option String
deriving DecidableEq

/-- The state of the cache file at `DATA_PATH`. -/
inductive FileState
  | missing
  | corrupt
  | content (jobs : List JobRecord)
deriving DecidableEq

/-- The hardcoded two-record demo sample returned by `load_cache_or_demo`. -/
def DEMO_JOBS : List JobRecord :=
  [{ title := some "Demo Data Scientist"
     company := some "Sample Analytics"
     location := some "Pune"
     salary := some "15-20 LPA"
     description := some "Work on ML pipelines, SQL, Python, and stakeholder presentations. Growth opportunity."
     url := some "https://example.com/apply-demo-ds"
     posted_date := some "2025-10-30" },
   { title := some "Demo AI Engineer"
     company := some "Demo AI Innovations"
     location := some "Remote"
     salary := some "12-18 LPA"
     description := some "Develop, tune, and deploy deep learning models in production for Indian clients."
     url := some "https://example.com/apply-demo-ai"
     posted_date := some "2025-10-29" }]

/-- `scraper.load_cache_or_demo`: first 8 cached records when the file exists,
parses, and holds a non-empty list (`if jobs: return jobs[:8]`); otherwise
(missing file, parse error, or empty list) the demo sample. -/
def load_cache_or_demo : FileState → List JobRecord
  | .content jobs => if jobs.isEmpty then DEMO_JOBS else jobs.take 8
  | _ => DEMO_JOBS

/-- `scraper.save_jobs`: read the existing list (empty when the file is
missing or unreadable — the exception is swallowed), append, write back. -/
def save_jobs (jobs : List JobRecord) : FileState → FileState
  | .content existing => .content (existing ++ jobs)
  | _ => .content jobs

/-- A raw job object of the JSearch response `data` array (the fields
`fetch_jobs` reads, each nullable). -/
structure RawJob where
  job_title : Option String
  employer_name : Option String
  job_city : Option String
  job_country : Option String
  job_state : Option String
  job_min_salary : Option String
  job_description : Option String
  job_apply_link : Option String
  job_google_link : Option String
  job_posted_at_datetime_utc : Option String
  job_posted_at_timestamp : Option String
deriving DecidableEq

/-- Python's `a or b` on nullable strings: `a` unless it is `None` or
falsy (the empty string), else `b`. -/
def pyOr (a b : Option String) : Option String :=
  match a with
  | some s => if s = "" then b else some s
  | none => b

/-- The per-record normalization inside `fetch_jobs` (field fallback chains). -/
def parse_job (j : RawJob) : JobRecord :=
  { title := j.job_title
    company := j.employer_name
    location := pyOr j.job_city (pyOr j.job_country j.job_state)
    salary := pyOr j.job_min_salary (some "")
    description := j.job_description
    url := pyOr j.job_apply_link j.job_google_link
    posted_date := pyOr j.job_posted_at_datetime_utc j.job_posted_at_timestamp }

/-- Outcome of the single HTTP GET in `fetch_jobs`: the `requests.get` call,
the `raise_for_status` check, or the `resp.json()` parse may each raise
(all three are caught by the same `except`), or the call succeeds with the
`data` array. -/
inductive RequestResult
  | requestError
  | statusError
  | parseError
  | ok (data : List RawJob)

/-- `scraper.fetch_jobs`, with the environment key and the request outcome
explicit, returning the result list together with the cache file state after
the call.  `if not rapidapi_key` is Python truthiness: absent or empty. -/
def fetch_jobs (rapidapiKey : Option String) (resp : RequestResult)
    (st : FileState) : List JobRecord × FileState :=
  if rapidapiKey = none ∨ rapidapiKey = some "" then
    (load_cache_or_demo st, st)
  else
    match resp with
    | .ok data =>
        let parsed := data.map parse_job
        if parsed.isEmpty then (parsed, st) else (parsed, save_jobs parsed st)
    | _ => (load_cache_or_demo st, st)

/-! ### `ai_assistant.analyze_job_fit`: the fit percentage

The score is computed over exact rational arithmetic (the Python source uses
IEEE doubles; both sub-scores are non-negative, so Python's `int(...)`
truncation is the floor). -/

/-- The denominator `len(job_features["skills"]) or 1`. -/
def skillDenom (n : ℕ) : ℕ := if n = 0 then 1 else n

/-- `xp_job = job_features["experience"] if job_features["experience"] else 1`. -/
def xpDenom (e : ℕ) : ℕ := if e = 0 then 1 else e

/-- The `fit_percent` computation of `analyze_job_fit`, on the feature
components (`common_skills` is the set intersection of the two skill lists),
idealized over exact rational arithmetic.  The program itself evaluates the
same expression in IEEE binary64 doubles — that computation is embedded
below as `fit_percent_float`, and the two can differ (see claim C4). -/
def fit_percent (resSkills jobSkills : List String) (xpUser xpJob : ℕ) : ℤ :=
  ⌊((resSkills.toFinset ∩ jobSkills.toFinset).card : ℚ) / (skillDenom jobSkills.length : ℚ) * 70
    + min ((xpUser : ℚ) / (xpDenom xpJob : ℚ)) 1 * 30⌋

/-! ### IEEE binary64 model of the fit computation

Python evaluates `int((c / d) * 70 + min(u / v, 1) * 30)` in double
precision.  We model a non-negative finite double as an integer mantissa
with a binary exponent (value `m * 2 ^ e`) and each operation as the exact
result rounded to 53 significant bits, round to nearest, ties to even —
CPython's `int / int` is itself the correctly rounded double of the exact
quotient, which the division below implements directly.  The model covers
the normal finite range; binary64 overflow and subnormal thresholds lie far
outside the values these claims evaluate. -/

/-- Fuelled binary length; the recursion depth follows the halvings of `n`,
and fuel `n` always suffices. -/
def bitlenF : ℕ → ℕ → ℕ
  | 0, _ => 0
  | f + 1, n => if n = 0 then 0 else bitlenF f (n / 2) + 1

/-- Number of binary digits of `n` (`0` for `0`). -/
def bitlen (n : ℕ) : ℕ := bitlenF n n

/-- A non-negative finite double: the value is `m * 2 ^ e`. -/
structure FP where
  m : ℕ
  e : ℤ
deriving DecidableEq

/-- Round `s / 2 ^ d` to an integer: to nearest, ties to even. -/
def roundHalfEven (s d : ℕ) : ℕ :=
  let q0 := s / 2 ^ d
  let r := s % 2 ^ d
  if 2 * r < 2 ^ d then q0
  else if 2 ^ d < 2 * r then q0 + 1
  else if q0 % 2 = 0 then q0 else q0 + 1

/-- Renormalize an exact non-negative value `p * 2 ^ e` to at most 53
significant bits (round to nearest, ties to even). -/
def fpNorm (p : ℕ) (e : ℤ) : FP :=
  if p < 2 ^ 53 then ⟨p, e⟩
  else
    let d := bitlen p - 53
    ⟨roundHalfEven p d, e + (d : ℤ)⟩

/-- The correctly rounded double quotient of two naturals (CPython
`int / int` semantics in the normal range): scale the fraction to 53–54
significant bits, divide, and round the quotient with the exact remainder. -/
def fdivNat (a b : ℕ) : FP :=
  if a = 0 then ⟨0, 0⟩
  else
    let t : ℤ := 53 + (bitlen b : ℤ) - (bitlen a : ℤ)
    let A := if 0 ≤ t then a * 2 ^ t.toNat else a
    let B := if 0 ≤ t then b else b * 2 ^ (-t).toNat
    let q0 := A / B
    let r := A % B
    if q0 < 2 ^ 53 then
      ⟨if 2 * r < B then q0
        else if B < 2 * r then q0 + 1
        else if q0 % 2 = 0 then q0 else q0 + 1, -t⟩
    else
      let m0 := q0 / 2
      let rr := q0 % 2 * B + r
      ⟨if rr < B then m0
        else if B < rr then m0 + 1
        else if m0 % 2 = 0 then m0 else m0 + 1, -t + 1⟩

/-- Double multiplication by an exactly representable natural (70, 30):
the exact product rounded. -/
def fmulNat (x : FP) (k : ℕ) : FP := fpNorm (x.m * k) x.e

/-- Double addition: the exact sum rounded. -/
def fadd (x y : FP) : FP :=
  let e := min x.e y.e
  fpNorm (x.m * 2 ^ (x.e - e).toNat + y.m * 2 ^ (y.e - e).toNat) e

/-- Exact comparison of a non-negative double with 1, for `min(x, 1)`. -/
def fleOne (x : FP) : Bool :=
  if 0 ≤ x.e then x.m * 2 ^ x.e.toNat ≤ 1 else x.m ≤ 2 ^ (-x.e).toNat

/-- Python `int()` on a non-negative double: truncation toward zero. -/
def ftrunc (x : FP) : ℕ :=
  if 0 ≤ x.e then x.m * 2 ^ x.e.toNat else x.m / 2 ^ (-x.e).toNat

/-- The `fit_percent` computation of `analyze_job_fit` in the program's own
IEEE binary64 arithmetic: `int((c / d) * 70 + min(u / v, 1) * 30)`, every
operation correctly rounded, with the denominators guarded as in the source. -/
def fit_percent_float (resSkills jobSkills : List String) (xpUser xpJob : ℕ) : ℕ :=
  let c := (resSkills.toFinset ∩ jobSkills.toFinset).card
  let t2 := fmulNat (fdivNat c (skillDenom jobSkills.length)) 70
  let t3 := fdivNat xpUser (xpDenom xpJob)
  let t5 := fmulNat (if fleOne t3 then t3 else ⟨1, 0⟩) 30
  ftrunc (fadd t2 t5)

/-- `analyze_job_fit`'s score on raw texts: features are extracted from both
texts and fed to the double-precision formula. -/
def analyze_job_fit_percent (resumeText jobText : String) : ℕ :=
  fit_percent_float (extract_resume_features resumeText).skills
    (extract_resume_features jobText).skills
    (extract_resume_features resumeText).experience
    (extract_resume_features jobText).experience

/-! ### Spec-side definitions

These restate, in the claims' own words, what the claims assert, to be
compared with the definitions embedded from the source. -/

/-- A year unit as the claim words it: `year(s)` or `yr(s)`. -/
def isYearUnit (u : List Char) : Prop :=
  u = ['y', 'e', 'a', 'r'] ∨ u = ['y', 'e', 'a', 'r', 's']
    ∨ u = ['y', 'r'] ∨ u = ['y', 'r', 's']

/-- The claim's notion of an occurrence contributing `n`: somewhere in the
text, an integer (a non-empty digit run), optionally followed by `+`, then
optional whitespace, then `year(s)` or `yr(s)`, the integer reading as `n`. -/
def specOccursWith (s : List Char) (n : ℕ) : Prop :=
  ∃ pre ds plus ws u post,
    s = pre ++ (ds ++ (plus ++ (ws ++ (u ++ post))))
    ∧ ds ≠ []
    ∧ (∀ c ∈ ds, isPyDigit c = true)
    ∧ (plus = [] ∨ plus = ['+'])
    ∧ (∀ c ∈ ws, isPySpace c = true)
    ∧ isYearUnit u
    ∧ digitsToNat ds = n

/-- The head of `l` (if any) fails `p`; so `l` cannot continue a greedy
`p`-run that ends just before it. -/
def headFails (p : Char → Bool) (l : List Char) : Prop :=
  ∀ c t, l = c :: t → p c = false

/-- The fit formula exactly as the claim states it:
`floor(|resume.skills ∩ job.skills| / max(|job.skills|, 1) * 70
  + min(resume.experience_years / max(job.experience_years, 1), 1) * 30)`. -/
def spec_fit_percent (resSkills jobSkills : Finset String) (xpUser xpJob : ℕ) : ℤ :=
  ⌊((resSkills ∩ jobSkills).card : ℚ) / ((max jobSkills.card 1 : ℕ) : ℚ) * 70
    + min ((xpUser : ℚ) / ((max xpJob 1 : ℕ) : ℚ)) 1 * 30⌋

/-! ### Concrete data for witnesses and counterexamples -/

/-- A job record with only a title, used to build concrete cache contents. -/
def titled (t : String) : JobRecord :=
  { title := some t, company := none, location := none, salary := none,
    description := none, url := none, posted_date := none }

/-- Nine pairwise distinct records: more than the 8-record cap of
`load_cache_or_demo`. -/
def NINE_JOBS : List JobRecord :=
  [titled "j1", titled "j2", titled "j3", titled "j4", titled "j5",
   titled "j6", titled "j7", titled "j8", titled "j9"]

/-! ## Theorems -/

/-- The skill vocabulary has no duplicates, so the set comprehension over it
is the filtered list. -/
theorem skill_keywords_nodup : SKILL_KEYWORDS.Nodup := by decide

/-- Claim C1 (status: code bug in the source).  The spec requires that a text
containing `c++` detects the skill `c++`.  The source builds the pattern
`\b` ++ `re.escape(skill)` ++ `\b`; after the final `+` of `c++` a word
boundary requires a following word character, so `c++` followed by a space,
punctuation or the end of the text never matches, even though `c++` is in the
vocabulary.  The `reactive`/`react` half of the claim does hold, and `c++`
is detected exactly when a word character immediately follows. -/
theorem claim1_word_boundary_eval :
    "react" ∉ (extract_resume_features "reactive programming").skills
    ∧ "c++" ∈ SKILL_KEYWORDS
    ∧ "c++" ∉ (extract_resume_features "skilled in c++").skills
    ∧ (extract_resume_features "c++x").skills = ["c++"] := by decide

/-- Claim C3: for every text, the extracted skills are a subset of the fixed
vocabulary, duplicate-free, sorted, and the experience is a non-negative
integer. -/
theorem claim3_extract_invariants : ∀ text : String,
    (extract_resume_features text).skills ⊆ SKILL_KEYWORDS
    ∧ (extract_resume_features text).skills.Nodup
    ∧ List.Sorted (· ≤ ·) (extract_resume_features text).skills
    ∧ 0 ≤ (extract_resume_features text).experience := by
  intro text
  refine ⟨?_, ?_, ?_, Nat.zero_le _⟩
  · intro a ha
    exact (List.mem_filter.mp
      ((List.perm_insertionSort (· ≤ ·) _).subset ha)).1
  · exact ((List.perm_insertionSort (· ≤ ·) _).nodup_iff).mpr
      (skill_keywords_nodup.filter _)
  · exact List.sorted_insertionSort (· ≤ ·) _

/-- Claim C4 as amended: the claim's floor formula describes the fit
percentage under exact rational arithmetic (stated for any job skill list
without duplicates, which is what the extractor produces), and the claim's
concrete instance evaluates to 76 both in the program's IEEE binary64
arithmetic and under the exact formula.  The universal equality does not
survive the program's double precision — see
`claim4_fit_formula_counterexample`. -/
theorem claim4_fit_formula :
    (∀ (resSkills jobSkills : List String) (xpUser xpJob : ℕ), jobSkills.Nodup →
      fit_percent resSkills jobSkills xpUser xpJob
        = spec_fit_percent resSkills.toFinset jobSkills.toFinset xpUser xpJob)
    ∧ fit_percent_float ["python", "sql"] ["python", "sql", "aws"] 5 3 = 76
    ∧ fit_percent ["python", "sql"] ["python", "sql", "aws"] 5 3 = 76 := by
  refine ⟨?_, by decide, ?_⟩
  · intro rs js xu xj hnd
    unfold fit_percent spec_fit_percent
    have h1 : skillDenom js.length = max js.toFinset.card 1 := by
      rw [List.toFinset_card_of_nodup hnd]
      unfold skillDenom
      split <;> omega
    have h2 : xpDenom xj = max xj 1 := by
      unfold xpDenom
      split <;> omega
    rw [h1, h2]
  · have h2 : (["python", "sql"].toFinset ∩ ["python", "sql", "aws"].toFinset).card = 2 := by
      decide
    unfold fit_percent skillDenom xpDenom
    rw [h2]
    norm_num

/-- Witness for C4: the general equation applied at the claim's concrete
feature sets. -/
theorem claim4_fit_formula_witness :
    fit_percent ["python", "sql"] ["python", "sql", "aws"] 5 3
      = spec_fit_percent (["python", "sql"].toFinset) (["python", "sql", "aws"].toFinset) 5 3 :=
  claim4_fit_formula.1 ["python", "sql"] ["python", "sql", "aws"] 5 3 (by decide)

/-- Counterexample to claim C4 as stated: the program computes the fit in
IEEE binary64, and with no common skills, resume experience `2 ^ 55 - 1` and
job experience `2 ^ 55`, the double quotient of the experience values rounds
up to exactly 1.0, so the program returns 30 while the claim's floor formula
gives 29. -/
theorem claim4_fit_formula_counterexample :
    fit_percent_float [] [] (2 ^ 55 - 1) (2 ^ 55) = 30
    ∧ spec_fit_percent ∅ ∅ (2 ^ 55 - 1) (2 ^ 55) = 29
    ∧ (fit_percent_float [] [] (2 ^ 55 - 1) (2 ^ 55) : ℤ)
        ≠ spec_fit_percent ∅ ∅ (2 ^ 55 - 1) (2 ^ 55) := by
  have h1 : fit_percent_float [] [] (2 ^ 55 - 1) (2 ^ 55) = 30 := by decide
  have h2 : spec_fit_percent ∅ ∅ (2 ^ 55 - 1) (2 ^ 55) = 29 := by
    show spec_fit_percent ∅ ∅ 36028797018963967 36028797018963968 = 29
    rw [spec_fit_percent]
    norm_num
  refine ⟨h1, h2, ?_⟩
  rw [h1, h2]
  decide

/-- Claim C5: both denominators of the fit formula are at least 1 (so, over
the exact arithmetic of the embedding, no division by zero is ever taken),
a zero required experience makes the experience denominator 1, and a job
with zero declared skills contributes 0 coverage rather than an error. -/
theorem claim5_no_div_by_zero :
    skillDenom 0 = 1 ∧ xpDenom 0 = 1
    ∧ (∀ n, 1 ≤ skillDenom n) ∧ (∀ e, 1 ≤ xpDenom e)
    ∧ (∀ (resSkills : List String) (xpUser xpJob : ℕ),
        fit_percent resSkills [] xpUser xpJob
          = ⌊min ((xpUser : ℚ) / (xpDenom xpJob : ℚ)) 1 * 30⌋) := by
  refine ⟨rfl, rfl, ?_, ?_, ?_⟩
  · intro n
    unfold skillDenom
    split <;> omega
  · intro e
    unfold xpDenom
    split <;> omega
  · intro rs xu xj
    simp [fit_percent, skillDenom]

/-- Counterexample to claim C6 as stated: appending nine records to a fresh
store and loading does not return the nine records (only the first eight come
back; `load_cache_or_demo` takes no limit argument at all). -/
theorem claim6_roundtrip_counterexample :
    load_cache_or_demo (save_jobs NINE_JOBS .missing) ≠ NINE_JOBS := by decide

/-- Claim C6 as amended: for `1 ≤ N ≤ 8` records appended to a fresh
(missing) or empty store, loading returns exactly those records, in order,
with unchanged fields; beyond 8 only the first 8 are returned. -/
theorem claim6_roundtrip_amended : ∀ jobs : List JobRecord,
    jobs ≠ [] → jobs.length ≤ 8 →
    load_cache_or_demo (save_jobs jobs .missing) = jobs
    ∧ load_cache_or_demo (save_jobs jobs (.content [])) = jobs := by
  intro jobs h1 h2
  have ht : jobs.take 8 = jobs := List.take_of_length_le h2
  constructor <;> simp [save_jobs, load_cache_or_demo, h1, ht]

/-- Witness for the amended C6 at a concrete one-record store. -/
theorem claim6_roundtrip_amended_witness :
    load_cache_or_demo (save_jobs [titled "w"] .missing) = [titled "w"]
    ∧ load_cache_or_demo (save_jobs [titled "w"] (.content [])) = [titled "w"] :=
  claim6_roundtrip_amended [titled "w"] (by decide) (by decide)

/-- Claim C7: `load_cache_or_demo` is total, returns the same fixed
two-record demo set whenever the cache file is missing, unreadable, or holds
an empty list, and returns persisted records (the first eight) exactly when
the store is present and non-empty. -/
theorem claim7_load_fallback :
    load_cache_or_demo .missing = DEMO_JOBS
    ∧ load_cache_or_demo .corrupt = DEMO_JOBS
    ∧ load_cache_or_demo (.content []) = DEMO_JOBS
    ∧ ∀ jobs : List JobRecord, jobs ≠ [] →
        load_cache_or_demo (.content jobs) = jobs.take 8 := by
  refine ⟨rfl, rfl, rfl, ?_⟩
  intro jobs h
  simp [load_cache_or_demo, h]

/-- Witness for C7 at a concrete non-empty store. -/
theorem claim7_load_fallback_witness :
    load_cache_or_demo (.content DEMO_JOBS) = DEMO_JOBS.take 8 :=
  claim7_load_fallback.2.2.2 DEMO_JOBS (by decide)

/-- Claim C8: on every failure path — credential absent from the environment
(unset or empty), or the HTTP request, status check, or response parsing
raising — `fetch_jobs` returns exactly what `load_cache_or_demo` returns,
and leaves the cache state unchanged, instead of propagating the error. -/
theorem claim8_fetch_failure_paths : ∀ st : FileState,
    (∀ resp, fetch_jobs none resp st = (load_cache_or_demo st, st))
    ∧ (∀ resp, fetch_jobs (some "") resp st = (load_cache_or_demo st, st))
    ∧ (∀ key, fetch_jobs key .requestError st = (load_cache_or_demo st, st))
    ∧ (∀ key, fetch_jobs key .statusError st = (load_cache_or_demo st, st))
    ∧ (∀ key, fetch_jobs key .parseError st = (load_cache_or_demo st, st)) := by
  intro st
  refine ⟨fun resp => by simp [fetch_jobs],
          fun resp => by simp [fetch_jobs], ?_, ?_, ?_⟩ <;>
    · intro key
      by_cases h : key = none ∨ key = some ""
      · simp [fetch_jobs, h]
      · simp [fetch_jobs, h]

/-- Claim C9: a successful fetch with zero parsed results returns the empty
list (no fallback to cache or demo data) and leaves the cache state
untouched, because `save_jobs` runs only when at least one record was
parsed. -/
theorem claim9_zero_results : ∀ (key : Option String) (st : FileState),
    ¬(key = none ∨ key = some "") →
    fetch_jobs key (.ok []) st = ([], st)
    ∧ ∀ data : List RawJob, data.map parse_job = [] →
        fetch_jobs key (.ok data) st = ([], st) := by
  intro key st h
  constructor
  · simp [fetch_jobs, h]
  · intro data hd
    simp [fetch_jobs, h, hd]

/-- Witness for C9 with a present key and a missing cache file. -/
theorem claim9_zero_results_witness :
    fetch_jobs (some "k") (.ok []) .missing = ([], .missing) :=
  (claim9_zero_results (some "k") .missing (by decide)).1

/-- Claim C10 (implicit): `load_cache_or_demo` takes no limit parameter and
caps its output from a non-empty store at the first 8 records in file order:
any cache with more than 8 records yields exactly 8. -/
theorem claim10_load_caps_at_eight : ∀ jobs : List JobRecord, 8 < jobs.length →
    load_cache_or_demo (.content jobs) = jobs.take 8
    ∧ (load_cache_or_demo (.content jobs)).length = 8 := by
  intro jobs h
  have hne : jobs ≠ [] := by
    intro e
    subst e
    simp at h
  have he : load_cache_or_demo (.content jobs) = jobs.take 8 := by
    simp [load_cache_or_demo, hne]
  refine ⟨he, ?_⟩
  rw [he, List.length_take]
  omega

/-- Witness for C10 at a concrete nine-record store. -/
theorem claim10_load_caps_at_eight_witness :
    load_cache_or_demo (.content NINE_JOBS) = NINE_JOBS.take 8
    ∧ (load_cache_or_demo (.content NINE_JOBS)).length = 8 :=
  claim10_load_caps_at_eight NINE_JOBS (by decide)

/-! ### Helper lemmas for the experience-scan refinement (claim C2) -/

theorem startsWith_iff : ∀ (p s : List Char), startsWith p s = true ↔ ∃ t, s = p ++ t
  | [], s => by simp [startsWith]
  | p :: ps, [] => by simp [startsWith]
  | p :: ps, c :: cs => by
    simp only [startsWith, Bool.and_eq_true, beq_iff_eq]
    constructor
    · rintro ⟨rfl, h⟩
      obtain ⟨t, rfl⟩ := (startsWith_iff ps cs).mp h
      exact ⟨t, rfl⟩
    · rintro ⟨t, h⟩
      rw [List.cons_append] at h
      injection h with h1 h2
      subst h1
      exact ⟨rfl, (startsWith_iff ps cs).mpr ⟨t, h2⟩⟩

theorem startsWith_append (p t : List Char) : startsWith p (p ++ t) = true :=
  (startsWith_iff p (p ++ t)).mpr ⟨t, rfl⟩

theorem digitsFold_shift : ∀ (b : List Char) (n : ℕ),
    b.foldl (fun m c => 10 * m + (c.toNat - 48)) n
      = n * 10 ^ b.length + b.foldl (fun m c => 10 * m + (c.toNat - 48)) 0
  | [], n => by simp
  | c :: b, n => by
    simp only [List.foldl_cons, List.length_cons]
    rw [digitsFold_shift b (10 * n + (c.toNat - 48)),
      digitsFold_shift b (10 * 0 + (c.toNat - 48))]
    ring

theorem digitsToNat_append (a b : List Char) :
    digitsToNat (a ++ b) = digitsToNat a * 10 ^ b.length + digitsToNat b := by
  unfold digitsToNat
  rw [List.foldl_append]
  exact digitsFold_shift b (digitsToNat a)

theorem digitsToNat_le_append (a b : List Char) :
    digitsToNat b ≤ digitsToNat (a ++ b) := by
  rw [digitsToNat_append]
  exact Nat.le_add_left _ _

theorem isPySpace_not_digit {c : Char} (h : isPySpace c = true) : isPyDigit c = false := by
  simp only [isPySpace, Bool.or_eq_true, decide_eq_true_eq] at h
  rcases h with ((((rfl | rfl) | rfl) | rfl) | rfl) | rfl <;> decide

theorem isPySpace_ne_plus {c : Char} (h : isPySpace c = true) : c ≠ '+' := by
  simp only [isPySpace, Bool.or_eq_true, decide_eq_true_eq] at h
  rcases h with ((((rfl | rfl) | rfl) | rfl) | rfl) | rfl <;> decide

theorem isYearUnit_facts {u : List Char} (h : isYearUnit u) :
    (∃ t, u = 'y' :: t) ∧ (∀ c ∈ u, isPyDigit c = false)
      ∧ (∀ c ∈ u, isPySpace c = false) ∧ u ≠ [] := by
  rcases h with rfl | rfl | rfl | rfl <;>
    exact ⟨⟨_, rfl⟩, by decide, by decide, by decide⟩

theorem takeWhile_append_of (p : Char → Bool) :
    ∀ (a b : List Char), (∀ c ∈ a, p c = true) → headFails p b →
      (a ++ b).takeWhile p = a ∧ (a ++ b).dropWhile p = b
  | [], b, _, hb => by
    cases b with
    | nil => simp
    | cons c t =>
      have hc : p c = false := hb c t rfl
      simp [List.takeWhile_cons, List.dropWhile_cons, hc]
  | a :: as, b, ha, hb => by
    have hpa : p a = true := ha a (List.mem_cons_self a as)
    obtain ⟨h1, h2⟩ := takeWhile_append_of p as b (fun c hc => ha c (List.mem_cons_of_mem a hc)) hb
    simp [List.takeWhile_cons, List.dropWhile_cons, hpa, h1, h2]

theorem plusCount_eq_zero {l : List Char} (h : ∀ t, l ≠ '+' :: t) : plusCount l = 0 := by
  unfold plusCount
  split
  · exact absurd rfl (h _)
  · rfl

theorem append_overlap {a b c d : List Char} (h : a ++ b = c ++ d)
    (hl : a.length ≤ c.length) : ∃ m, c = a ++ m ∧ b = m ++ d := by
  have hc : c = a ++ b.take (c.length - a.length) := by
    have h1 : (a ++ b).take c.length = c := by
      rw [h, List.take_left]
    rw [List.take_append_eq_append_take, List.take_of_length_le hl] at h1
    exact h1.symm
  refine ⟨b.take (c.length - a.length), hc, ?_⟩
  have h2 : a ++ b = a ++ (b.take (c.length - a.length) ++ d) := by
    conv_lhs => rw [h, hc]
    rw [List.append_assoc]
  exact List.append_cancel_left h2

theorem le_maxNat_of_mem : ∀ {l : List ℕ} {n : ℕ}, n ∈ l → n ≤ maxNat l
  | c :: t, n, h => by
    unfold maxNat
    simp only [List.foldr_cons]
    rcases List.mem_cons.mp h with rfl | h
    · exact Nat.le_max_left _ _
    · exact le_trans (le_maxNat_of_mem h) (Nat.le_max_right _ _)

theorem maxNat_zero_or_mem : ∀ l : List ℕ, maxNat l = 0 ∨ maxNat l ∈ l
  | [] => Or.inl rfl
  | c :: t => by
    unfold maxNat
    simp only [List.foldr_cons]
    rcases Nat.le_total (t.foldr max 0) c with h | h
    · rw [Nat.max_eq_left h]
      exact Or.inr (List.mem_cons_self c t)
    · rw [Nat.max_eq_right h]
      rcases maxNat_zero_or_mem t with h0 | hm
      · exact Or.inl h0
      · exact Or.inr (List.mem_cons_of_mem c hm)

theorem specOccursWith_append_left {t : List Char} {n : ℕ} (front : List Char)
    (h : specOccursWith t n) : specOccursWith (front ++ t) n := by
  obtain ⟨pre, ds, plus, ws, u, post, rfl, h1, h2, h3, h4, h5, h6⟩ := h
  exact ⟨front ++ pre, ds, plus, ws, u, post, by simp [List.append_assoc],
    h1, h2, h3, h4, h5, h6⟩

theorem plusCount_spec (l : List Char) :
    (plusCount l = 1 ∧ ∃ t, l = '+' :: t) ∨ (plusCount l = 0 ∧ ∀ t, l ≠ '+' :: t) := by
  cases l with
  | nil => exact Or.inr ⟨rfl, by simp⟩
  | cons c t =>
    by_cases hc : c = '+'
    · subst hc
      exact Or.inl ⟨rfl, t, rfl⟩
    · refine Or.inr ⟨?_, ?_⟩
      · refine plusCount_eq_zero ?_
        intro t' h
        injection h with h1 _
        exact hc h1
      · intro t' h
        injection h with h1 _
        exact hc h1

theorem yearTok_some_decomp {s : List Char} {k : ℕ} (h : yearTok s = some k) :
    ∃ u, isYearUnit u ∧ u.length = k ∧ s = u ++ s.drop k := by
  rw [yearTok] at h
  split_ifs at h with h1 h2 h3 h4 <;> injection h with hk <;> subst hk
  · obtain ⟨t, rfl⟩ := (startsWith_iff _ _).mp h1
    exact ⟨_, Or.inr (Or.inl rfl), rfl, rfl⟩
  · obtain ⟨t, rfl⟩ := (startsWith_iff _ _).mp h2
    exact ⟨_, Or.inl rfl, rfl, rfl⟩
  · obtain ⟨t, rfl⟩ := (startsWith_iff _ _).mp h3
    exact ⟨_, Or.inr (Or.inr (Or.inr rfl)), rfl, rfl⟩
  · obtain ⟨t, rfl⟩ := (startsWith_iff _ _).mp h4
    exact ⟨_, Or.inr (Or.inr (Or.inl rfl)), rfl, rfl⟩

theorem yearTok_isSome_of_unit {u post : List Char} (hu : isYearUnit u) :
    ∃ k, yearTok (u ++ post) = some k := by
  rw [yearTok]
  rcases hu with rfl | rfl | rfl | rfl <;> split_ifs <;>
    first
      | exact ⟨_, rfl⟩
      | simp_all [startsWith]

theorem matchXPAt_some_decomp {s : List Char} {n k : ℕ} (h : matchXPAt s = some (n, k)) :
    ∃ ds plus ws u r,
      s = ds ++ (plus ++ (ws ++ (u ++ r)))
      ∧ ds ≠ []
      ∧ (∀ c ∈ ds, isPyDigit c = true)
      ∧ (plus = [] ∨ plus = ['+'])
      ∧ (∀ c ∈ ws, isPySpace c = true)
      ∧ isYearUnit u
      ∧ n = digitsToNat ds
      ∧ k = ds.length + plus.length + ws.length + u.length
      ∧ r = s.drop k := by
  rw [matchXPAt] at h
  split at h
  · exact Option.noConfusion h
  · rename_i hcond
    split at h
    · rename_i k0 hyt
      simp only [Option.some.injEq, Prod.mk.injEq] at h
      obtain ⟨hn, hk⟩ := h
      obtain ⟨u, hu, hulen, hus⟩ := yearTok_some_decomp hyt
      have hdsne : s.takeWhile isPyDigit ≠ [] := by
        simpa [List.isEmpty_iff] using hcond
      have hpluslen : ((afterDigits s).take (plusCount (afterDigits s))).length
          = plusCount (afterDigits s) := by
        rcases plusCount_spec (afterDigits s) with ⟨h1, t, ht⟩ | ⟨h1, _⟩
        · rw [h1, ht]
          rfl
        · rw [h1]
          rfl
      have hplus : (afterDigits s).take (plusCount (afterDigits s)) = []
          ∨ (afterDigits s).take (plusCount (afterDigits s)) = ['+'] := by
        rcases plusCount_spec (afterDigits s) with ⟨h1, t, ht⟩ | ⟨h1, _⟩
        · right
          rw [h1, ht]
          rfl
        · left
          rw [h1]
          rfl
      have e3 : afterPlus s = wsRun s ++ (u ++ (afterWs s).drop k0) := by
        conv_lhs => rw [← List.takeWhile_append_dropWhile isPySpace (afterPlus s)]
        exact congrArg (wsRun s ++ ·) hus
      have e2 : afterDigits s
          = (afterDigits s).take (plusCount (afterDigits s))
            ++ (wsRun s ++ (u ++ (afterWs s).drop k0)) := by
        conv_lhs => rw [← List.take_append_drop (plusCount (afterDigits s)) (afterDigits s)]
        exact congrArg ((afterDigits s).take (plusCount (afterDigits s)) ++ ·) e3
      have e1 : s = s.takeWhile isPyDigit
          ++ ((afterDigits s).take (plusCount (afterDigits s))
            ++ (wsRun s ++ (u ++ (afterWs s).drop k0))) := by
        conv_lhs => rw [← List.takeWhile_append_dropWhile isPyDigit s]
        exact congrArg (s.takeWhile isPyDigit ++ ·) e2
      have hklen : k = (s.takeWhile isPyDigit).length
          + ((afterDigits s).take (plusCount (afterDigits s))).length
          + (wsRun s).length + u.length := by
        omega
      have hs2 : s = (s.takeWhile isPyDigit
          ++ (afterDigits s).take (plusCount (afterDigits s))
          ++ wsRun s ++ u) ++ (afterWs s).drop k0 := by
        simpa [List.append_assoc] using e1
      have hlenE : (s.takeWhile isPyDigit
          ++ (afterDigits s).take (plusCount (afterDigits s))
          ++ wsRun s ++ u).length = k := by
        simp only [List.length_append]
        omega
      have hr : (afterWs s).drop k0 = s.drop k := by
        conv_rhs => rw [hs2]
        rw [← hlenE, List.drop_left]
      exact ⟨s.takeWhile isPyDigit, (afterDigits s).take (plusCount (afterDigits s)),
        wsRun s, u, (afterWs s).drop k0, e1, hdsne,
        fun c hc => List.mem_takeWhile_imp hc, hplus,
        fun c hc => List.mem_takeWhile_imp hc, hu, hn.symm, hklen, hr⟩
    · exact Option.noConfusion h

theorem occ_headFails_digit {plus ws u post : List Char}
    (hp : plus = [] ∨ plus = ['+']) (hw : ∀ c ∈ ws, isPySpace c = true)
    (hu : isYearUnit u) : headFails isPyDigit (plus ++ (ws ++ (u ++ post))) := by
  obtain ⟨⟨tu, hyu⟩, hud, hus, hune⟩ := isYearUnit_facts hu
  rcases hp with rfl | rfl
  · rw [List.nil_append]
    cases ws with
    | nil =>
      rw [List.nil_append, hyu]
      intro c t hct
      injection hct with h1 _
      subst h1
      decide
    | cons w ws' =>
      intro c t hct
      rw [List.cons_append] at hct
      injection hct with h1 _
      subst h1
      exact isPySpace_not_digit (hw w (List.mem_cons_self w ws'))
  · intro c t hct
    rw [List.cons_append] at hct
    injection hct with h1 _
    subst h1
    decide

theorem occ_no_plus_head {ws u post : List Char}
    (hw : ∀ c ∈ ws, isPySpace c = true) (hu : isYearUnit u) :
    ∀ t, ws ++ (u ++ post) ≠ '+' :: t := by
  obtain ⟨⟨tu, hyu⟩, _, _, _⟩ := isYearUnit_facts hu
  cases ws with
  | nil =>
    rw [List.nil_append, hyu]
    intro t h
    injection h with h1 _
    exact absurd h1 (by decide)
  | cons w ws' =>
    intro t h
    rw [List.cons_append] at h
    injection h with h1 _
    exact absurd h1 (isPySpace_ne_plus (hw w (List.mem_cons_self w ws')))

theorem occ_headFails_space {u post : List Char} (hu : isYearUnit u) :
    headFails isPySpace (u ++ post) := by
  obtain ⟨⟨tu, hyu⟩, _, hus, _⟩ := isYearUnit_facts hu
  rw [hyu]
  intro c t h
  injection h with h1 _
  subst h1
  decide

theorem matchXPAt_of_shape {ds plus ws u post : List Char}
    (hdsne : ds ≠ []) (hd : ∀ c ∈ ds, isPyDigit c = true)
    (hp : plus = [] ∨ plus = ['+']) (hw : ∀ c ∈ ws, isPySpace c = true)
    (hu : isYearUnit u) :
    ∃ k, matchXPAt (ds ++ (plus ++ (ws ++ (u ++ post)))) = some (digitsToNat ds, k) := by
  obtain ⟨htw, hdw⟩ := takeWhile_append_of isPyDigit ds (plus ++ (ws ++ (u ++ post))) hd
    (occ_headFails_digit hp hw hu)
  have hapl : afterPlus (ds ++ (plus ++ (ws ++ (u ++ post)))) = ws ++ (u ++ post) := by
    rw [afterPlus, afterDigits, hdw]
    rcases hp with rfl | rfl
    · rw [List.nil_append, plusCount_eq_zero (occ_no_plus_head hw hu)]
      rfl
    · rfl
  have hws' : afterWs (ds ++ (plus ++ (ws ++ (u ++ post)))) = u ++ post := by
    rw [afterWs, hapl]
    exact (takeWhile_append_of isPySpace ws (u ++ post) hw (occ_headFails_space hu)).2
  obtain ⟨k0, hk0⟩ := @yearTok_isSome_of_unit u post hu
  have hempty : ds.isEmpty = false := by
    cases ds with
    | nil => exact absurd rfl hdsne
    | cons a b => rfl
  refine ⟨ds.length + plusCount (afterDigits (ds ++ (plus ++ (ws ++ (u ++ post)))))
    + (wsRun (ds ++ (plus ++ (ws ++ (u ++ post))))).length + k0, ?_⟩
  rw [matchXPAt, htw, hws', hk0, hempty]
  rfl

theorem specOccursWith_ne_nil {n : ℕ} (h : specOccursWith [] n) : False := by
  obtain ⟨pre, ds, plus, ws, u, post, he, hdsne, _⟩ := h
  have he' := he.symm
  simp only [List.append_eq_nil] at he'
  exact hdsne he'.2.1

theorem findallXPFuel_sound : ∀ (fuel : ℕ) (s : List Char), s.length ≤ fuel →
    ∀ n, n ∈ findallXPFuel fuel s → specOccursWith s n := by
  intro fuel
  induction fuel with
  | zero =>
    intro s hs n hn
    simp [findallXPFuel] at hn
  | succ fuel ih =>
    intro s hs n hn
    cases s with
    | nil => simp [findallXPFuel] at hn
    | cons c rest =>
      have hrest : rest.length ≤ fuel := by
        simp only [List.length_cons] at hs
        omega
      rcases hm : matchXPAt (c :: rest) with _ | ⟨n0, k⟩
      · rw [show findallXPFuel (fuel + 1) (c :: rest) = findallXPFuel fuel rest from by
          simp [findallXPFuel, hm]] at hn
        exact specOccursWith_append_left [c] (ih rest hrest n hn)
      · rw [show findallXPFuel (fuel + 1) (c :: rest)
            = n0 :: findallXPFuel fuel (rest.drop (k - 1)) from by
          simp [findallXPFuel, hm]] at hn
        obtain ⟨ds, plus, ws, u, r, he, hdsne, hd, hp, hw, hu, hn0, hk, hr⟩ :=
          matchXPAt_some_decomp hm
        have hds1 : 1 ≤ ds.length := by
          cases ds with
          | nil => exact absurd rfl hdsne
          | cons a b => simp
        rcases List.mem_cons.mp hn with rfl | hmem
        · exact ⟨[], ds, plus, ws, u, r, by simpa using he, hdsne, hd, hp, hw, hu, hn0.symm⟩
        · have hdropeq : rest.drop (k - 1) = r := by
            rw [hr]
            cases k with
            | zero => omega
            | succ j => simp
          have hocc := ih (rest.drop (k - 1))
            (by simp only [List.length_drop]; omega) n hmem
          rw [hdropeq] at hocc
          have hsfront : c :: rest = (ds ++ plus ++ ws ++ u) ++ r := by
            simpa [List.append_assoc] using he
          rw [hsfront]
          exact specOccursWith_append_left _ hocc

theorem findallXPFuel_complete : ∀ (fuel : ℕ) (s : List Char), s.length ≤ fuel →
    ∀ n, specOccursWith s n → n ≤ maxNat (findallXPFuel fuel s) := by
  intro fuel
  induction fuel with
  | zero =>
    intro s hs n hocc
    have hnil : s = [] := List.length_eq_zero.mp (Nat.le_zero.mp hs)
    subst hnil
    exact absurd hocc (fun h => specOccursWith_ne_nil h)
  | succ fuel ih =>
    intro s hs n hocc
    cases s with
    | nil => exact absurd hocc (fun h => specOccursWith_ne_nil h)
    | cons c rest =>
      have hrest : rest.length ≤ fuel := by
        simp only [List.length_cons] at hs
        omega
      rcases hm : matchXPAt (c :: rest) with _ | ⟨n0, k⟩
      · rw [show findallXPFuel (fuel + 1) (c :: rest) = findallXPFuel fuel rest from by
          simp [findallXPFuel, hm]]
        obtain ⟨pre, ds, plus, ws, u, post, he, hdsne, hd, hp, hw, hu, hv⟩ := hocc
        cases pre with
        | nil =>
          exfalso
          rw [List.nil_append] at he
          obtain ⟨k', hk'⟩ := @matchXPAt_of_shape ds plus ws u post hdsne hd hp hw hu
          rw [← he, hm] at hk'
          exact Option.noConfusion hk'
        | cons c' pre' =>
          rw [List.cons_append] at he
          injection he with h1 h2
          exact ih rest hrest n ⟨pre', ds, plus, ws, u, post, h2, hdsne, hd, hp, hw, hu, hv⟩
      · rw [show findallXPFuel (fuel + 1) (c :: rest)
            = n0 :: findallXPFuel fuel (rest.drop (k - 1)) from by
          simp [findallXPFuel, hm]]
        obtain ⟨ds0, plus0, ws0, u0, r, he0, hdsne0, hd0, hp0, hw0, hu0, hn0, hk, hr⟩ :=
          matchXPAt_some_decomp hm
        obtain ⟨pre, ds, plus, ws, u, post, he, hdsne, hd, hp, hw, hu, hv⟩ := hocc
        have hmax : maxNat (n0 :: findallXPFuel fuel (rest.drop (k - 1)))
            = max n0 (maxNat (findallXPFuel fuel (rest.drop (k - 1)))) := rfl
        rw [hmax]
        have hds0len : 1 ≤ ds0.length := by
          cases ds0 with
          | nil => exact absurd rfl hdsne0
          | cons a b => simp
        have heaten : c :: rest = (ds0 ++ plus0 ++ ws0 ++ u0) ++ r := by
          simpa [List.append_assoc] using he0
        have heatenlen : (ds0 ++ plus0 ++ ws0 ++ u0).length = k := by
          simp only [List.length_append]
          omega
        have hdropeq : rest.drop (k - 1) = r := by
          rw [hr]
          cases k with
          | zero => omega
          | succ j => simp
        rcases Nat.lt_or_ge pre.length k with hcase | hcase
        · -- the occurrence starts inside the span the match consumed
          rcases Nat.lt_or_ge pre.length ds0.length with hsub | hsub
          · -- it starts inside the digit run: its value is bounded by the match value
            obtain ⟨B, hB1, hB2⟩ := append_overlap (he.symm.trans he0) (Nat.le_of_lt hsub)
            have hBd : ∀ x ∈ B, isPyDigit x = true := by
              intro x hx
              apply hd0
              rw [hB1]
              exact List.mem_append_right pre hx
            have htw1 : (ds ++ (plus ++ (ws ++ (u ++ post)))).takeWhile isPyDigit = ds :=
              (takeWhile_append_of isPyDigit ds _ hd (occ_headFails_digit hp hw hu)).1
            have htw2 : (ds ++ (plus ++ (ws ++ (u ++ post)))).takeWhile isPyDigit = B := by
              rw [hB2]
              exact (takeWhile_append_of isPyDigit B _ hBd
                (occ_headFails_digit hp0 hw0 hu0)).1
            have hdsB : ds = B := htw1.symm.trans htw2
            have hle : n ≤ n0 := by
              rw [← hv, hdsB, hn0, hB1]
              exact digitsToNat_le_append pre B
            exact le_trans hle (Nat.le_max_left _ _)
          · -- it would have to start amid the `+`, whitespace or year token: impossible
            exfalso
            obtain ⟨m, hm1, hm2⟩ := append_overlap (he0.symm.trans he) hsub
            have hm2' : (plus0 ++ ws0 ++ u0) ++ r
                = m ++ (ds ++ (plus ++ (ws ++ (u ++ post)))) := by
              simpa [List.append_assoc] using hm2
            have hprelen : pre.length = ds0.length + m.length := by
              rw [hm1]
              simp
            have hmlen : m.length < (plus0 ++ ws0 ++ u0).length := by
              simp only [List.length_append]
              omega
            obtain ⟨q, hq1, hq2⟩ := append_overlap hm2'.symm (Nat.le_of_lt hmlen)
            cases q with
            | nil =>
              rw [List.append_nil] at hq1
              rw [hq1] at hmlen
              exact lt_irrefl _ hmlen
            | cons qh q' =>
              cases ds with
              | nil => exact hdsne rfl
              | cons dh ds' =>
                have hq2' : dh :: (ds' ++ (plus ++ (ws ++ (u ++ post))))
                    = qh :: (q' ++ r) := by
                  simpa using hq2
                injection hq2' with hhd _
                have hdig : isPyDigit dh = true := hd dh (List.mem_cons_self dh ds')
                have hqP : qh ∈ plus0 ++ ws0 ++ u0 := by
                  rw [hq1]
                  exact List.mem_append_right m (List.mem_cons_self qh q')
                have hnotdig : isPyDigit qh = false := by
                  rcases List.mem_append.mp hqP with hx | hx
                  · rcases List.mem_append.mp hx with hy | hy
                    · rcases hp0 with rfl | rfl
                      · simp at hy
                      · simp at hy
                        subst hy
                        decide
                    · exact isPySpace_not_digit (hw0 _ hy)
                  · exact (isYearUnit_facts hu0).2.1 _ hx
                rw [hhd] at hdig
                rw [hdig] at hnotdig
                exact Bool.noConfusion hnotdig
        · -- the occurrence lies wholly in the unscanned remainder
          obtain ⟨m, hm1, hm2⟩ := append_overlap (heaten.symm.trans he) (by omega)
          have hoccr : specOccursWith r n :=
            ⟨m, ds, plus, ws, u, post, hm2, hdsne, hd, hp, hw, hu, hv⟩
          have hlen2 : (rest.drop (k - 1)).length ≤ fuel := by
            simp only [List.length_drop]
            omega
          have hns := ih (rest.drop (k - 1)) hlen2 n (by rw [hdropeq]; exact hoccr)
          exact le_trans hns (Nat.le_max_right _ _)

/-- Claim C2: for every input text, the experience value that
`extract_resume_features` returns is the maximum integer over all
occurrences of an integer (optionally followed by `+`, then optional
whitespace) followed by `year(s)`/`yr(s)` in the lowered text — i.e. it is
an occurrence value that bounds every occurrence value, and it is `0` when
there is none — and the claim's four concrete examples evaluate as stated. -/
theorem claim2_experience_max :
    (∀ text : String,
      ((extract_resume_features text).experience = 0
          ∨ specOccursWith (lowerStr text) (extract_resume_features text).experience)
      ∧ ∀ n, specOccursWith (lowerStr text) n → n ≤ (extract_resume_features text).experience)
    ∧ (extract_resume_features "3 years").experience = 3
    ∧ (extract_resume_features "7+ years of experience").experience = 7
    ∧ (extract_resume_features "Experienced since 2015").experience = 0
    ∧ (extract_resume_features "2 yrs, 5 years").experience = 5 := by
  refine ⟨?_, by decide, by decide, by decide, by decide⟩
  intro text
  constructor
  · rcases maxNat_zero_or_mem (findallXP (lowerStr text)) with h | h
    · exact Or.inl h
    · exact Or.inr (findallXPFuel_sound (lowerStr text).length (lowerStr text) le_rfl _ h)
  · intro n hn
    exact findallXPFuel_complete (lowerStr text).length (lowerStr text) le_rfl n hn

/-- Witness for C2: the bound applied at the concrete text `12 years` with
the concrete occurrence `12` + space + `years`. -/
theorem claim2_experience_max_witness :
    12 ≤ (extract_resume_features "12 years").experience :=
  (claim2_experience_max.1 "12 years").2 12
    ⟨[], ['1', '2'], [], [' '], ['y', 'e', 'a', 'r', 's'], [], by decide, by decide,
      by decide, Or.inl rfl, by decide, Or.inr (Or.inl rfl), by decide⟩

end AIJobHunter
